import Mathlib

/-!
Verification of the streaming deduplicator (lib/streamaggr) of this
repository, shallowly embedded in Lean 4.

The deduplicator implementation file itself is not present in the source
tree given here; only its unit test (lib/streamaggr/deduplicator_test.go)
is.  The definitions below are therefore modelled from the specification
document, with one exception: the upsert tie-break rule is pinned by the
expected output of TestDeduplicator, which is authoritative source code of
the repository.  That test pushes, for the metric named x, samples with
values 8943, 90984 and 433, where 8943 and 433 carry a timestamp one
millisecond later than 90984 (the parser adds the offset to every
timestamp, so rows without an explicit timestamp get the smallest one),
and it expects 8943 to be emitted.  Last-write-wins would emit 433 and
highest-timestamp alone would be ambiguous between 8943 and 433, so the
rule realised by the code is: a new sample replaces the stored one exactly
when its (timestamp, value) pair is lexicographically greater.

Values are 64-bit floats in the code; they are modelled as rationals,
which is exact on every value occurring in the test and preserves the
order comparisons the algorithm performs.  Timestamps are integer
milliseconds, modelled as Int.
-/

/-- A single label: a name/value string pair, as in prompb.Label.  The
metric name travels as the reserved label named __name__. -/
structure Label where
  name : String
  value : String
deriving DecidableEq

/-- A sample: integer millisecond timestamp plus a value, as in
prompb.Sample (the float64 value is modelled as a rational). -/
structure Sample where
  timestamp : Int
  value : ℚ
deriving DecidableEq

/-- A time series as handed to Push: a label list (containing __name__)
and the samples attached to it, as in prompb.TimeSeries. -/
structure TimeSeries where
  labels : List Label
  samples : List Sample
deriving DecidableEq

/-- Ordering of labels by name (lexicographic on the name's character
sequence), used for the deterministic sort of the normalized label
set. -/
def labelLe (a b : Label) : Prop := a.name.data ≤ b.name.data

instance : DecidableRel labelLe :=
  fun a b => inferInstanceAs (Decidable (a.name.data ≤ b.name.data))

instance : IsTotal Label labelLe :=
  ⟨fun a b => le_total a.name.data b.name.data⟩

instance : IsTrans Label labelLe := ⟨fun _ _ _ h h' => le_trans h h'⟩

/-- Modelled from the spec (the deduplicator source is absent from the
tree): the label-drop step of the Label Normalizer keeps exactly the
labels whose name is not in the configured drop list; unknown or absent
drop names are no-ops. -/
def dropSeriesLabels (drop : List String) (ls : List Label) : List Label :=
  ls.filter (fun l => decide (l.name ∉ drop))

/-- Modelled from the spec: the Label Normalizer drops the configured
label names and sorts the remainder lexicographically by name, producing
the canonical Series Identity (the __name__ label keeps the metric name
part of the identity). -/
def canonicalLabels (drop : List String) (ls : List Label) : List Label :=
  List.insertionSort labelLe (dropSeriesLabels drop ls)

/-- An open generation: the surviving (identity, sample) entries
accumulated since the last flush.  The canonical label list itself is the
key, which is the collision-free semantics the spec requires of the
fingerprint plus retained canonical bytes. -/
abbrev Gen := List (List Label × Sample)

/-- Lookup of the surviving sample stored for a given identity. -/
def lookupGen (k : List Label) : Gen → Option Sample
  | [] => none
  | e :: rest => if e.1 = k then some e.2 else lookupGen k rest

/-- Identity keys currently present in a generation. -/
def keysOf (g : Gen) : List (List Label) := g.map Prod.fst

/-- Strict lexicographic order on (timestamp, value): a is beaten by b. -/
def sampleLt (a b : Sample) : Prop :=
  a.timestamp < b.timestamp ∨ (a.timestamp = b.timestamp ∧ a.value < b.value)

/-- Lexicographic order on (timestamp, value), non-strict. -/
def sampleLe (a b : Sample) : Prop :=
  a.timestamp < b.timestamp ∨ (a.timestamp = b.timestamp ∧ a.value ≤ b.value)

instance (a b : Sample) : Decidable (sampleLt a b) :=
  inferInstanceAs (Decidable (a.timestamp < b.timestamp ∨
    (a.timestamp = b.timestamp ∧ a.value < b.value)))

instance (a b : Sample) : Decidable (sampleLe a b) :=
  inferInstanceAs (Decidable (a.timestamp < b.timestamp ∨
    (a.timestamp = b.timestamp ∧ a.value ≤ b.value)))

/-- The tie-break test pinned by TestDeduplicator: the incoming sample
snew replaces the stored sample sold exactly when snew's
(timestamp, value) pair is lexicographically greater. -/
def replaces (snew sold : Sample) : Bool := decide (sampleLt sold snew)

/-- Upsert of one sample into the open generation under the tie-break
rule: insert if the identity is absent, otherwise keep the stored sample
unless the new one beats it. -/
def upsert (k : List Label) (s : Sample) : Gen → Gen
  | [] => [(k, s)]
  | e :: rest =>
    if e.1 = k then (e.1, if replaces s e.2 then s else e.2) :: rest
    else e :: upsert k s rest

/-- Applying a flat list of (identity, sample) pairs to a generation, in
order; this is the per-sample loop of the state table. -/
def applyPairs (ps : List (List Label × Sample)) (g : Gen) : Gen :=
  ps.foldl (fun g p => upsert p.1 p.2 g) g

/-- Modelled from the spec: Push normalizes one series to its canonical
identity and pairs every sample of the series with it; a series whose
canonical label set is empty is skipped (malformed input is rejected
per-series without aborting the batch). -/
def flatSeries (drop : List String) (ts : TimeSeries) :
    List (List Label × Sample) :=
  if canonicalLabels drop ts.labels = [] then []
  else ts.samples.map (fun s => (canonicalLabels drop ts.labels, s))

/-- The flat (identity, sample) stream produced from a batch, in batch
order. -/
def flatSamples (drop : List String) : List TimeSeries →
    List (List Label × Sample)
  | [] => []
  | ts :: rest => flatSeries drop ts ++ flatSamples drop rest

/-- Modelled from the spec: Push applies every sample of every series of
the batch, in order, to the open generation under the tie-break rule. -/
def pushBatch (drop : List String) (batch : List TimeSeries) (g : Gen) :
    Gen :=
  applyPairs (flatSamples drop batch) g

/-- Modelled from the spec: the Sink Adapter turns a detached generation
into the external batch shape, one output series per surviving entry,
carrying the canonical (post-drop, sorted) label set and exactly the one
surviving sample. -/
def flushGen (g : Gen) : List TimeSeries :=
  g.map (fun e => { labels := e.1, samples := [e.2] })

/-- All samples a batch pushes for a given identity, in processing
order. -/
def samplesForKey (drop : List String) (k : List Label) :
    List TimeSeries → List Sample
  | [] => []
  | ts :: rest =>
    (if canonicalLabels drop ts.labels = k then ts.samples else []) ++
      samplesForKey drop k rest

/-- Modelled from the spec: a Deduplicator instance owns the window
duration (milliseconds), the configured dropped label names and the open
generation.  The sink callback and the background flush task are modelled
at the points where they act (flushGen, runEvents). -/
structure Deduplicator where
  window : Int
  drop : List String
  gen : Gen
deriving DecidableEq

/-- Modelled from the spec: construction fails fast on a non-positive
window duration; otherwise it yields an instance with an empty open
generation. -/
def newDeduplicator (window : Int) (drop : List String) :
    Option Deduplicator :=
  if window ≤ 0 then none
  else some { window := window, drop := drop, gen := [] }

/-- Push on a constructed instance. -/
def dedupPush (d : Deduplicator) (batch : List TimeSeries) : Deduplicator :=
  { d with gen := pushBatch d.drop batch d.gen }

/-- Modelled from the spec: Stop performs one final flush of the
accumulated state; the value is the batch handed to the sink by that
final flush. -/
def mustStop (d : Deduplicator) : List TimeSeries :=
  flushGen d.gen

/-- Pushing the same batch n times in a row within one window. -/
def pushTimes (drop : List String) (batch : List TimeSeries) :
    Nat → Gen → Gen
  | 0, g => g
  | n + 1, g => pushTimes drop batch n (pushBatch drop batch g)

/-- Events observable at the state table: a Push of a batch, or a flush
(periodic tick, explicit Flush, or the final flush of Stop). -/
inductive Event where
  | push : List TimeSeries → Event
  | flush : Event

/-- Modelled from the spec: the life of the state table over a sequence
of events.  A push mutates the open generation; a flush detaches it,
emits it through the Sink Adapter (recorded in the returned log, in
emission order) and opens a fresh empty generation. -/
def runEvents (drop : List String) : List Event → Gen →
    Gen × List (List TimeSeries)
  | [], g => (g, [])
  | Event.push b :: rest, g => runEvents drop rest (pushBatch drop b g)
  | Event.flush :: rest, g =>
    let r := runEvents drop rest []
    (r.1, flushGen g :: r.2)

/-! ### Order lemmas on samples -/

theorem sampleLe_refl (a : Sample) : sampleLe a a :=
  Or.inr ⟨rfl, le_refl _⟩

theorem sampleLe_trans {a b c : Sample} (h1 : sampleLe a b)
    (h2 : sampleLe b c) : sampleLe a c := by
  rcases h1 with h1 | ⟨e1, v1⟩
  · rcases h2 with h2 | ⟨e2, _⟩
    · exact Or.inl (lt_trans h1 h2)
    · exact Or.inl (e2 ▸ h1)
  · rcases h2 with h2 | ⟨e2, v2⟩
    · exact Or.inl (e1 ▸ h2)
    · exact Or.inr ⟨e1.trans e2, le_trans v1 v2⟩

theorem sampleLe_of_lt {a b : Sample} (h : sampleLt a b) : sampleLe a b := by
  rcases h with h | ⟨e, v⟩
  · exact Or.inl h
  · exact Or.inr ⟨e, le_of_lt v⟩

theorem sampleLe_of_not_lt {a b : Sample} (h : ¬ sampleLt a b) :
    sampleLe b a := by
  unfold sampleLt at h
  push_neg at h
  rcases lt_trichotomy b.timestamp a.timestamp with ht | ht | ht
  · exact Or.inl ht
  · exact Or.inr ⟨ht, h.2 ht.symm⟩
  · exact absurd h.1 (not_le_of_lt ht)

/-! ### Lookup / upsert interaction -/

theorem lookupGen_upsert_self (k : List Label) (s : Sample) (g : Gen) :
    lookupGen k (upsert k s g) =
      some (match lookupGen k g with
            | none => s
            | some m => if replaces s m then s else m) := by
  induction g with
  | nil => simp [upsert, lookupGen]
  | cons e rest ih =>
    by_cases he : e.1 = k
    · simp [upsert, lookupGen, he]
    · simp [upsert, lookupGen, he, ih]

theorem lookupGen_upsert_ne {k₀ k : List Label} (h : k₀ ≠ k) (s : Sample)
    (g : Gen) : lookupGen k (upsert k₀ s g) = lookupGen k g := by
  have h' : ¬ (k = k₀) := fun e => h e.symm
  induction g with
  | nil => simp [upsert, lookupGen, h]
  | cons e rest ih =>
    by_cases he : e.1 = k₀
    · simp [upsert, lookupGen, he, h, h']
    · by_cases hk : e.1 = k
      · simp [upsert, lookupGen, he, hk, h']
      · simp [upsert, lookupGen, he, hk, ih]

theorem lookupGen_none_iff (k : List Label) (g : Gen) :
    lookupGen k g = none ↔ k ∉ keysOf g := by
  induction g with
  | nil => simp [lookupGen, keysOf]
  | cons e rest ih =>
    by_cases he : e.1 = k
    · simp [lookupGen, keysOf, he]
    · simp [lookupGen, keysOf, he, ih, Ne.symm he]

theorem mem_keysOf_of_lookup {k : List Label} {g : Gen} {s : Sample}
    (h : lookupGen k g = some s) : k ∈ keysOf g := by
  by_cases hm : k ∈ keysOf g
  · exact hm
  · rw [(lookupGen_none_iff k g).mpr hm] at h
    cases h

theorem mem_of_lookup_some {k : List Label} {g : Gen} {s : Sample}
    (h : lookupGen k g = some s) : (k, s) ∈ g := by
  induction g with
  | nil => simp [lookupGen] at h
  | cons e rest ih =>
    by_cases he : e.1 = k
    · obtain ⟨e1, e2⟩ := e
      rw [lookupGen, if_pos he] at h
      injection h with h'
      subst h'
      cases he
      exact List.mem_cons_self _ _
    · rw [lookupGen, if_neg he] at h
      exact List.mem_cons_of_mem _ (ih h)

/-! ### Keys under upsert and applyPairs -/

theorem keysOf_cons (e : List Label × Sample) (rest : Gen) :
    keysOf (e :: rest) = e.1 :: keysOf rest := rfl

theorem keysOf_upsert_mem {k : List Label} (s : Sample) {g : Gen}
    (h : k ∈ keysOf g) : keysOf (upsert k s g) = keysOf g := by
  induction g with
  | nil => cases h
  | cons e rest ih =>
    by_cases he : e.1 = k
    · rw [upsert, if_pos he, keysOf_cons, keysOf_cons]
    · have hm : k ∈ keysOf rest := by
        rw [keysOf_cons] at h
        rcases List.mem_cons.mp h with h' | h'
        · exact absurd h'.symm he
        · exact h'
      rw [upsert, if_neg he, keysOf_cons, keysOf_cons, ih hm]

theorem keysOf_upsert_not_mem {k : List Label} (s : Sample) {g : Gen}
    (h : k ∉ keysOf g) : keysOf (upsert k s g) = keysOf g ++ [k] := by
  induction g with
  | nil => rfl
  | cons e rest ih =>
    have he : ¬ (e.1 = k) := fun h' => by
      rw [keysOf_cons, h'] at h
      exact h (List.mem_cons_self _ _)
    have hm : k ∉ keysOf rest := fun h' => by
      rw [keysOf_cons] at h
      exact h (List.mem_cons_of_mem _ h')
    rw [upsert, if_neg he, keysOf_cons, keysOf_cons, ih hm, List.cons_append]

theorem mem_keysOf_upsert_self (k : List Label) (s : Sample) (g : Gen) :
    k ∈ keysOf (upsert k s g) := by
  by_cases hm : k ∈ keysOf g
  · rw [keysOf_upsert_mem s hm]
    exact hm
  · rw [keysOf_upsert_not_mem s hm]
    simp

theorem mem_keysOf_upsert_of_mem {k' : List Label} (k : List Label)
    (s : Sample) {g : Gen} (h : k' ∈ keysOf g) :
    k' ∈ keysOf (upsert k s g) := by
  by_cases hm : k ∈ keysOf g
  · rw [keysOf_upsert_mem s hm]
    exact h
  · rw [keysOf_upsert_not_mem s hm]
    exact List.mem_append_left _ h

theorem nodup_keysOf_upsert (k : List Label) (s : Sample) {g : Gen}
    (h : (keysOf g).Nodup) : (keysOf (upsert k s g)).Nodup := by
  by_cases hm : k ∈ keysOf g
  · rw [keysOf_upsert_mem s hm]
    exact h
  · rw [keysOf_upsert_not_mem s hm]
    simp [List.nodup_append, h, hm]

theorem applyPairs_append (ps qs : List (List Label × Sample)) (g : Gen) :
    applyPairs (ps ++ qs) g = applyPairs qs (applyPairs ps g) := by
  simp [applyPairs, List.foldl_append]

theorem mem_keysOf_applyPairs_of_mem {k : List Label}
    (ps : List (List Label × Sample)) {g : Gen} (h : k ∈ keysOf g) :
    k ∈ keysOf (applyPairs ps g) := by
  induction ps generalizing g with
  | nil => simpa [applyPairs] using h
  | cons p rest ih =>
    exact ih (mem_keysOf_upsert_of_mem p.1 p.2 h)

theorem mem_keysOf_applyPairs_of_pair {p : List Label × Sample}
    {ps : List (List Label × Sample)} (hp : p ∈ ps) (g : Gen) :
    p.1 ∈ keysOf (applyPairs ps g) := by
  induction ps generalizing g with
  | nil => cases hp
  | cons q rest ih =>
    rcases List.mem_cons.mp hp with h | h
    · subst h
      exact mem_keysOf_applyPairs_of_mem rest (mem_keysOf_upsert_self p.1 p.2 g)
    · exact ih h _

theorem keysOf_applyPairs_sub {k : List Label}
    {ps : List (List Label × Sample)} {g : Gen}
    (h : k ∈ keysOf (applyPairs ps g)) :
    k ∈ keysOf g ∨ k ∈ ps.map Prod.fst := by
  induction ps generalizing g with
  | nil => exact Or.inl (by simpa [applyPairs] using h)
  | cons p rest ih =>
    rcases ih (g := upsert p.1 p.2 g) h with h' | h'
    · by_cases hm : p.1 ∈ keysOf g
      · rw [keysOf_upsert_mem p.2 hm] at h'
        exact Or.inl h'
      · rw [keysOf_upsert_not_mem p.2 hm] at h'
        rcases List.mem_append.mp h' with h'' | h''
        · exact Or.inl h''
        · exact Or.inr (by simp_all)
    · exact Or.inr (List.mem_cons_of_mem _ h')

theorem nodup_keysOf_applyPairs (ps : List (List Label × Sample)) {g : Gen}
    (h : (keysOf g).Nodup) : (keysOf (applyPairs ps g)).Nodup := by
  induction ps generalizing g with
  | nil => simpa [applyPairs] using h
  | cons p rest ih => exact ih (nodup_keysOf_upsert p.1 p.2 h)

/-! ### Samples pushed for one identity, over a flat pair list -/

/-- The samples carried by a flat pair list for a given identity key, in
processing order. -/
def sfPairs (ps : List (List Label × Sample)) (k : List Label) :
    List Sample :=
  (ps.filter (fun p => decide (p.1 = k))).map Prod.snd

theorem sfPairs_nil (k : List Label) : sfPairs [] k = [] := rfl

theorem sfPairs_append (ps qs : List (List Label × Sample))
    (k : List Label) :
    sfPairs (ps ++ qs) k = sfPairs ps k ++ sfPairs qs k := by
  simp [sfPairs, List.filter_append]

theorem sfPairs_singleton (p : List Label × Sample) (k : List Label) :
    sfPairs [p] k = if p.1 = k then [p.2] else [] := by
  by_cases h : p.1 = k <;> simp [sfPairs, h]

theorem mem_sfPairs_of_mem {p : List Label × Sample}
    {ps : List (List Label × Sample)} (h : p ∈ ps) :
    p.2 ∈ sfPairs ps p.1 := by
  unfold sfPairs
  exact List.mem_map_of_mem _ (List.mem_filter.mpr ⟨h, by simp⟩)

/-! ### The survivor stored for an identity is the lexicographic maximum
of the samples pushed for it. -/

theorem applyPairs_spec (ps : List (List Label × Sample))
    (k : List Label) :
    (lookupGen k (applyPairs ps []) = none → sfPairs ps k = []) ∧
    (∀ s, lookupGen k (applyPairs ps []) = some s →
      s ∈ sfPairs ps k ∧ ∀ s' ∈ sfPairs ps k, sampleLe s' s) := by
  induction ps using List.reverseRecOn with
  | nil =>
    refine ⟨fun _ => rfl, fun s h => ?_⟩
    simp [applyPairs, lookupGen] at h
  | append_singleton ps p ih =>
    have happ : applyPairs (ps ++ [p]) [] = upsert p.1 p.2 (applyPairs ps []) := by
      simp [applyPairs, List.foldl_append]
    have hsf : sfPairs (ps ++ [p]) k =
        sfPairs ps k ++ (if p.1 = k then [p.2] else []) := by
      rw [sfPairs_append, sfPairs_singleton]
    by_cases hk : p.1 = k
    · subst hk
      rw [happ]
      rw [lookupGen_upsert_self]
      cases hprev : lookupGen p.1 (applyPairs ps []) with
      | none =>
        have hempty := ih.1 hprev
        refine ⟨fun h => Option.noConfusion h, fun s h => ?_⟩
        change some p.2 = some s at h
        injection h with h'
        subst h'
        rw [hsf, hempty]
        refine ⟨by simp, fun s' hs' => ?_⟩
        simp at hs'
        subst hs'
        exact sampleLe_refl _
      | some m =>
        have hm := ih.2 m hprev
        refine ⟨fun h => Option.noConfusion h, fun s h => ?_⟩
        change some (if replaces p.2 m then p.2 else m) = some s at h
        injection h with h'
        subst h'
        rw [hsf]
        simp only [if_pos rfl]
        by_cases hr : replaces p.2 m
        · have hlt : sampleLt m p.2 := by
            have := of_decide_eq_true hr
            exact this
          rw [if_pos hr]
          refine ⟨List.mem_append_right _ (by simp), fun s' hs' => ?_⟩
          rcases List.mem_append.mp hs' with h' | h'
          · exact sampleLe_trans (hm.2 s' h') (sampleLe_of_lt hlt)
          · simp at h'
            subst h'
            exact sampleLe_refl _
        · have hle : sampleLe p.2 m := by
            have : ¬ sampleLt m p.2 := fun hc =>
              hr (decide_eq_true hc)
            exact sampleLe_of_not_lt this
          rw [if_neg hr]
          refine ⟨List.mem_append_left _ hm.1, fun s' hs' => ?_⟩
          rcases List.mem_append.mp hs' with h' | h'
          · exact hm.2 s' h'
          · simp at h'
            subst h'
            exact hle
    · rw [happ, lookupGen_upsert_ne hk, hsf, if_neg hk, List.append_nil]
      exact ih

/-! ### Relating batches to their flat (identity, sample) stream -/

theorem sfPairs_cons (p : List Label × Sample)
    (ps : List (List Label × Sample)) (k : List Label) :
    sfPairs (p :: ps) k =
      (if p.1 = k then [p.2] else []) ++ sfPairs ps k := by
  by_cases h : p.1 = k <;> simp [sfPairs, h]

theorem sfPairs_map_pair (c : List Label) (samples : List Sample)
    (k : List Label) :
    sfPairs (samples.map (fun s => (c, s))) k =
      if c = k then samples else [] := by
  induction samples with
  | nil => by_cases h : c = k <;> simp [sfPairs, h]
  | cons s rest ih =>
    rw [List.map_cons, sfPairs_cons, ih]
    by_cases h : c = k <;> simp [h]

theorem sfPairs_flatSeries {k : List Label} (hk : k ≠ [])
    (drop : List String) (ts : TimeSeries) :
    sfPairs (flatSeries drop ts) k =
      if canonicalLabels drop ts.labels = k then ts.samples else [] := by
  unfold flatSeries
  by_cases hc : canonicalLabels drop ts.labels = []
  · have hck : ¬ (canonicalLabels drop ts.labels = k) := by
      rw [hc]
      exact fun h => hk h.symm
    rw [if_pos hc, if_neg hck]
    rfl
  · rw [if_neg hc, sfPairs_map_pair]

theorem sfPairs_flatSamples {k : List Label} (hk : k ≠ [])
    (drop : List String) (batch : List TimeSeries) :
    sfPairs (flatSamples drop batch) k = samplesForKey drop k batch := by
  induction batch with
  | nil => rfl
  | cons ts rest ih =>
    rw [flatSamples, sfPairs_append, samplesForKey, ih,
      sfPairs_flatSeries hk]

theorem mem_flatSamples {drop : List String} {batch : List TimeSeries}
    {ts : TimeSeries} {s : Sample} (hts : ts ∈ batch)
    (hs : s ∈ ts.samples) (hk : canonicalLabels drop ts.labels ≠ []) :
    (canonicalLabels drop ts.labels, s) ∈ flatSamples drop batch := by
  induction batch with
  | nil => cases hts
  | cons t rest ih =>
    rw [flatSamples]
    rcases List.mem_cons.mp hts with h | h
    · subst h
      refine List.mem_append_left _ ?_
      rw [flatSeries, if_neg hk]
      exact List.mem_map_of_mem _ hs
    · exact List.mem_append_right _ (ih h)

theorem flatSamples_key_shape {drop : List String}
    {batch : List TimeSeries} {p : List Label × Sample}
    (h : p ∈ flatSamples drop batch) :
    p.1 ≠ [] ∧ ∃ ts ∈ batch, p.1 = canonicalLabels drop ts.labels := by
  induction batch with
  | nil => cases h
  | cons t rest ih =>
    rw [flatSamples] at h
    rcases List.mem_append.mp h with h' | h'
    · rw [flatSeries] at h'
      by_cases hc : canonicalLabels drop t.labels = []
      · rw [if_pos hc] at h'
        cases h'
      · rw [if_neg hc] at h'
        rcases List.mem_map.mp h' with ⟨s, _, hps⟩
        refine ⟨?_, t, List.mem_cons_self _ _, ?_⟩
        · rw [← hps]
          exact hc
        · rw [← hps]
    · rcases ih h' with ⟨h1, ts, h2, h3⟩
      exact ⟨h1, ts, List.mem_cons_of_mem _ h2, h3⟩

/-! ### Re-pushing never changes the stored survivor -/

theorem not_sampleLt_of_sampleLe {a b : Sample} (h : sampleLe a b) :
    ¬ sampleLt b a := by
  intro h'
  rcases h with h1 | ⟨e1, v1⟩ <;> rcases h' with h2 | ⟨e2, v2⟩
  · omega
  · omega
  · omega
  · exact absurd v1 (not_le_of_lt v2)

theorem upsert_noop {k : List Label} {g : Gen} {m s : Sample}
    (hl : lookupGen k g = some m) (hle : sampleLe s m) :
    upsert k s g = g := by
  induction g with
  | nil => cases hl
  | cons e rest ih =>
    by_cases he : e.1 = k
    · rw [lookupGen, if_pos he] at hl
      injection hl with hl'
      have hr : replaces s e.2 = false := by
        rw [replaces, decide_eq_false_iff_not]
        rw [hl']
        exact not_sampleLt_of_sampleLe hle
      rw [upsert, if_pos he, hr]
      simp
    · rw [lookupGen, if_neg he] at hl
      rw [upsert, if_neg he, ih hl]

theorem applyPairs_noop {ps : List (List Label × Sample)} {g : Gen}
    (h : ∀ p ∈ ps, ∃ m, lookupGen p.1 g = some m ∧ sampleLe p.2 m) :
    applyPairs ps g = g := by
  induction ps with
  | nil => rfl
  | cons p rest ih =>
    rcases h p (List.mem_cons_self _ _) with ⟨m, hl, hle⟩
    have hstep : upsert p.1 p.2 g = g := upsert_noop hl hle
    have : applyPairs (p :: rest) g = applyPairs rest (upsert p.1 p.2 g) := rfl
    rw [this, hstep]
    exact ih (fun q hq => h q (List.mem_cons_of_mem _ hq))

theorem pushBatch_idem (drop : List String) (batch : List TimeSeries) :
    pushBatch drop batch (pushBatch drop batch []) =
      pushBatch drop batch [] := by
  unfold pushBatch
  apply applyPairs_noop
  intro p hp
  have hmem : p.2 ∈ sfPairs (flatSamples drop batch) p.1 :=
    mem_sfPairs_of_mem hp
  cases hl : lookupGen p.1 (applyPairs (flatSamples drop batch) []) with
  | none =>
    have := (applyPairs_spec (flatSamples drop batch) p.1).1 hl
    rw [this] at hmem
    cases hmem
  | some m =>
    have hspec := (applyPairs_spec (flatSamples drop batch) p.1).2 m hl
    exact ⟨m, rfl, hspec.2 p.2 hmem⟩

theorem pushTimes_fixed (drop : List String) (batch : List TimeSeries)
    {g : Gen} (hg : pushBatch drop batch g = g) :
    ∀ n, pushTimes drop batch n g = g := by
  intro n
  induction n with
  | zero => rfl
  | succ n ih =>
    rw [pushTimes, hg]
    exact ih

theorem pushTimes_succ_eq_once (drop : List String)
    (batch : List TimeSeries) (n : Nat) :
    pushTimes drop batch (n + 1) [] = pushBatch drop batch [] := by
  rw [pushTimes]
  exact pushTimes_fixed drop batch (pushBatch_idem drop batch) n

/-! ### The flush loop over event traces -/

theorem runEvents_pushes (drop : List String) (bs : List (List TimeSeries))
    (evs : List Event) (g : Gen) :
    runEvents drop (bs.map Event.push ++ evs) g =
      runEvents drop evs (bs.foldl (fun g b => pushBatch drop b g) g) := by
  induction bs generalizing g with
  | nil => rfl
  | cons b rest ih =>
    rw [List.map_cons, List.cons_append, runEvents, ih, List.foldl_cons]

theorem runEvents_inv (drop : List String) (evs : List Event) :
    ∀ g, (keysOf g).Nodup →
      (keysOf (runEvents drop evs g).1).Nodup ∧
      ∀ out ∈ (runEvents drop evs g).2,
        ∃ g', (keysOf g').Nodup ∧ out = flushGen g' := by
  induction evs with
  | nil => exact fun g hg => ⟨hg, by simp [runEvents]⟩
  | cons ev rest ih =>
    intro g hg
    cases ev with
    | push b =>
      exact ih (pushBatch drop b g) (nodup_keysOf_applyPairs _ hg)
    | flush =>
      have hnil : (keysOf ([] : Gen)).Nodup := by simp [keysOf]
      refine ⟨(ih [] hnil).1, fun out hout => ?_⟩
      rw [runEvents] at hout
      rcases List.mem_cons.mp hout with h | h
      · exact ⟨g, hg, h⟩
      · exact (ih [] hnil).2 out h

theorem flushGen_labels (g : Gen) :
    (flushGen g).map TimeSeries.labels = keysOf g := by
  induction g with
  | nil => rfl
  | cons e rest ih =>
    rw [flushGen, List.map_cons, List.map_cons, keysOf_cons]
    rw [flushGen] at ih
    rw [ih]

/-! ### Key presence across folded pushes -/

theorem keys_preserved_foldBatches {k : List Label} (drop : List String)
    (batches : List (List TimeSeries)) :
    ∀ g, k ∈ keysOf g →
      k ∈ keysOf (batches.foldl (fun g b => pushBatch drop b g) g) := by
  induction batches with
  | nil => exact fun g h => h
  | cons b rest ih =>
    intro g h
    rw [List.foldl_cons]
    exact ih _ (mem_keysOf_applyPairs_of_mem _ h)

theorem key_mem_foldBatches {drop : List String} {ts : TimeSeries}
    {s : Sample} (hs : s ∈ ts.samples)
    (hk : canonicalLabels drop ts.labels ≠ []) :
    ∀ (batches : List (List TimeSeries)) (b : List TimeSeries),
      b ∈ batches → ts ∈ b →
      ∀ g, canonicalLabels drop ts.labels ∈
        keysOf (batches.foldl (fun g bb => pushBatch drop bb g) g) := by
  intro batches
  induction batches with
  | nil =>
    intro b hb
    cases hb
  | cons bh rest ih =>
    intro b hb hts g
    rw [List.foldl_cons]
    rcases List.mem_cons.mp hb with h | h
    · subst h
      have h1 : canonicalLabels drop ts.labels ∈
          keysOf (pushBatch drop b g) :=
        mem_keysOf_applyPairs_of_pair (mem_flatSamples hts hs hk) g
      exact keys_preserved_foldBatches drop rest _ h1
    · exact ih b h hts _

theorem foldl_dedupPush_eq (batches : List (List TimeSeries)) :
    ∀ d : Deduplicator,
      batches.foldl dedupPush d =
        ⟨d.window, d.drop,
          batches.foldl (fun g b => pushBatch d.drop b g) d.gen⟩ := by
  induction batches with
  | nil => intro d; rfl
  | cons b rest ih =>
    intro d
    rw [List.foldl_cons, ih, List.foldl_cons]
    rfl

/-! ### Normalizer properties -/

theorem mem_canonicalLabels (drop : List String) (ls : List Label)
    (l : Label) :
    l ∈ canonicalLabels drop ls ↔ (l ∈ ls ∧ l.name ∉ drop) := by
  unfold canonicalLabels dropSeriesLabels
  rw [List.mem_insertionSort, List.mem_filter]
  simp

theorem sorted_canonicalLabels (drop : List String) (ls : List Label) :
    List.Sorted labelLe (canonicalLabels drop ls) :=
  List.sorted_insertionSort labelLe _

theorem canonicalLabels_perm (drop : List String) (ls : List Label) :
    (canonicalLabels drop ls).Perm (dropSeriesLabels drop ls) :=
  List.perm_insertionSort _ _

theorem sorted_names_strict {l : List Label}
    (hs : List.Sorted labelLe l) (hn : (l.map Label.name).Nodup) :
    List.Pairwise (fun a b : Label => a.name.data < b.name.data) l := by
  have hne : List.Pairwise (fun a b : Label => a.name ≠ b.name) l := by
    rw [List.Nodup, List.pairwise_map] at hn
    exact hn
  refine List.Pairwise.imp ?_ (List.Pairwise.and hs hne)
  intro a b h
  exact lt_of_le_of_ne h.1 (fun hd => h.2 (String.ext hd))

theorem canonicalLabels_names_nodup (drop : List String) {ls : List Label}
    (hn : (ls.map Label.name).Nodup) :
    ((canonicalLabels drop ls).map Label.name).Nodup := by
  have hsub : ((dropSeriesLabels drop ls).map Label.name).Sublist
      (ls.map Label.name) :=
    (List.filter_sublist _).map _
  have hn1 : ((dropSeriesLabels drop ls).map Label.name).Nodup :=
    hn.sublist hsub
  exact (((canonicalLabels_perm drop ls).map Label.name).nodup_iff).mpr hn1

theorem canonicalLabels_of_perm (drop : List String) {ls ls' : List Label}
    (hp : ls.Perm ls') (hn : (ls.map Label.name).Nodup) :
    canonicalLabels drop ls' = canonicalLabels drop ls := by
  have hn' : (ls'.map Label.name).Nodup := ((hp.map Label.name).nodup_iff).mp hn
  have hdp : (dropSeriesLabels drop ls).Perm (dropSeriesLabels drop ls') :=
    hp.filter _
  have hperm : (canonicalLabels drop ls').Perm (canonicalLabels drop ls) :=
    ((canonicalLabels_perm drop ls').trans hdp.symm).trans
      (canonicalLabels_perm drop ls).symm
  have hlt : List.Pairwise (fun a b : Label => a.name.data < b.name.data)
      (canonicalLabels drop ls) :=
    sorted_names_strict (sorted_canonicalLabels drop ls)
      (canonicalLabels_names_nodup drop hn)
  have hlt' : List.Pairwise (fun a b : Label => a.name.data < b.name.data)
      (canonicalLabels drop ls') :=
    sorted_names_strict (sorted_canonicalLabels drop ls')
      (canonicalLabels_names_nodup drop hn')
  letI : IsAntisymm Label (fun a b : Label => a.name.data < b.name.data) :=
    ⟨fun _ _ h1 h2 => absurd h1 (lt_asymm h2)⟩
  exact List.eq_of_perm_of_sorted hperm hlt' hlt

theorem emitted_labels_canonical {drop : List String}
    {batch : List TimeSeries} {out : TimeSeries}
    (h : out ∈ flushGen (pushBatch drop batch [])) :
    ∃ ts ∈ batch, out.labels = canonicalLabels drop ts.labels := by
  rcases List.mem_map.mp h with ⟨e, he, hout⟩
  have hkey : e.1 ∈ keysOf (pushBatch drop batch []) :=
    List.mem_map_of_mem Prod.fst he
  rcases keysOf_applyPairs_sub hkey with h' | h'
  · cases h'
  · rcases List.mem_map.mp h' with ⟨p, hp, hpe⟩
    rcases flatSamples_key_shape hp with ⟨_, ts, hts, hc⟩
    refine ⟨ts, hts, ?_⟩
    rw [← hout, ← hpe, hc]

/-! ### Concrete data mirroring TestDeduplicator

The parser adds the caller-supplied offset (modelled as 1000000) to every
sample timestamp, so rows without an explicit timestamp carry 1000000 and
the rows of metric x with explicit timestamp 1 carry 1000001.  Fractional
float values are written as explicit reduced rationals
(34.54 = 1727/50, -34.34 = -1717/50, -2.3 = -23/10). -/

def dropNodeInstance : List String := ["node", "instance"]

def kubeLabels (nm : String) : List Label :=
  [ ⟨"__name__", nm⟩, ⟨"instance", "x"⟩, ⟨"job", "aaa"⟩
  , ⟨"pod", "sdfd-dfdfdfs"⟩, ⟨"node", "aosijjewrerfd"⟩
  , ⟨"namespace", "asdff"⟩, ⟨"container", "ohohffd"⟩ ]

def kubeKey (nm : String) : List Label :=
  [ ⟨"__name__", nm⟩, ⟨"container", "ohohffd"⟩, ⟨"job", "aaa"⟩
  , ⟨"namespace", "asdff"⟩, ⟨"pod", "sdfd-dfdfdfs"⟩ ]

def xKey : List Label := [⟨"__name__", "x"⟩]

/-- The three samples of metric x from the test, in push order. -/
def xBatch : List TimeSeries :=
  [ ⟨xKey, [⟨1000001, 8943⟩]⟩
  , ⟨xKey, [⟨1000000, 90984⟩]⟩
  , ⟨xKey, [⟨1000001, 433⟩]⟩ ]

/-- The full batch parsed by TestDeduplicator, in push order. -/
def testBatch : List TimeSeries :=
  [ ⟨kubeLabels "foo", [⟨1000000, 123⟩]⟩
  , ⟨kubeLabels "bar", [⟨1000000, { num := 1727, den := 50 }⟩]⟩
  , ⟨xKey, [⟨1000001, 8943⟩]⟩
  , ⟨kubeLabels "baz_aaa_aaa_fdd", [⟨1000000, { num := -1717, den := 50 }⟩]⟩
  , ⟨xKey, [⟨1000000, 90984⟩]⟩
  , ⟨xKey, [⟨1000001, 433⟩]⟩
  , ⟨kubeLabels "asfjkldsf", [⟨1000000, 12322⟩]⟩
  , ⟨kubeLabels "foo", [⟨1000000, 894⟩]⟩
  , ⟨kubeLabels "baz_aaa_aaa_fdd", [⟨1000000, { num := -23, den := 10 }⟩]⟩ ]

/-- The two-series scenario of the spec's concrete identity-collapsing
test: same metric name foo, same labels after dropping node and
instance. -/
def fooX : TimeSeries :=
  ⟨[⟨"__name__", "foo"⟩, ⟨"instance", "x"⟩, ⟨"job", "aaa"⟩],
    [⟨1000000, 1⟩]⟩

def fooY : TimeSeries :=
  ⟨[⟨"__name__", "foo"⟩, ⟨"instance", "y"⟩, ⟨"job", "aaa"⟩],
    [⟨1000000, 2⟩]⟩

set_option maxRecDepth 4000 in
/-- The model reproduces TestDeduplicator exactly: pushing the parsed
batch ten times and flushing emits, per surviving identity, the same
values the Go test expects (foo 894, bar 34.54, x 8943,
baz_aaa_aaa_fdd -2.3, asfjkldsf 12322) with sorted retained labels. -/
theorem testDeduplicator_expected_output :
    flushGen (pushTimes dropNodeInstance testBatch 10 []) =
      [ ⟨kubeKey "foo", [⟨1000000, 894⟩]⟩
      , ⟨kubeKey "bar", [⟨1000000, { num := 1727, den := 50 }⟩]⟩
      , ⟨xKey, [⟨1000001, 8943⟩]⟩
      , ⟨kubeKey "baz_aaa_aaa_fdd", [⟨1000000, { num := -23, den := 10 }⟩]⟩
      , ⟨kubeKey "asfjkldsf", [⟨1000000, 12322⟩]⟩ ] := by
  decide

/-- C1 counterexample: pushing the test's three samples of metric x in
their processing order, the sample processed last within the window is
the value-433 sample (it is the last element of the flat sample stream),
yet the stored survivor is the value-8943 sample, which differs from it.
So the sample observed later in processing order does not in general
survive, refuting last-write-wins. -/
theorem c1_counterexample :
    lookupGen xKey (pushBatch dropNodeInstance xBatch []) =
        some ⟨1000001, 8943⟩ ∧
      (flatSamples dropNodeInstance xBatch).getLast? =
        some (xKey, ⟨1000001, 433⟩) ∧
      ¬ ((⟨1000001, 8943⟩ : Sample) = ⟨1000001, 433⟩) := by
  decide

/-- C1 (amended): when two samples a then b are pushed for the same
Series Identity into a window where that identity is not yet present, the
survivor is b exactly when b's (timestamp, value) pair lexicographically
exceeds a's, and a otherwise; processing order alone does not decide the
winner. -/
theorem c1_pair_tie_break (drop : List String) (g : Gen)
    (ls : List Label) (a b : Sample)
    (hk : canonicalLabels drop ls ≠ [])
    (h : lookupGen (canonicalLabels drop ls) g = none) :
    lookupGen (canonicalLabels drop ls)
        (pushBatch drop [⟨ls, [a, b]⟩] g) =
      some (if replaces b a then b else a) := by
  have hpush : pushBatch drop [⟨ls, [a, b]⟩] g =
      upsert (canonicalLabels drop ls) b
        (upsert (canonicalLabels drop ls) a g) := by
    simp [pushBatch, flatSamples, flatSeries, hk, applyPairs]
  rw [hpush, lookupGen_upsert_self, lookupGen_upsert_self, h]

/-- C1 amended-claim witness: with the identity absent, pushing a sample
of timestamp 5 and then one of older timestamp 4 keeps the first one. -/
theorem c1_pair_tie_break_witness :
    lookupGen (canonicalLabels [] xKey)
        (pushBatch [] [⟨xKey, [⟨5, 100⟩, ⟨4, 200⟩]⟩] []) =
      some (if replaces ⟨4, 200⟩ ⟨5, 100⟩ then ⟨4, 200⟩ else ⟨5, 100⟩) :=
  c1_pair_tie_break [] [] xKey ⟨5, 100⟩ ⟨4, 200⟩ (by decide) rfl

/-- C2: among all samples pushed for one Series Identity within a window,
the stored survivor is one of them and every pushed duplicate either has
a strictly smaller timestamp, or the same timestamp and a value no larger
than the survivor's: the highest timestamp wins and timestamp ties are
broken towards the larger value. -/
theorem c2_survivor_highest_timestamp (drop : List String)
    (batch : List TimeSeries) (k : List Label) (s : Sample)
    (h : lookupGen k (pushBatch drop batch []) = some s) :
    s ∈ samplesForKey drop k batch ∧
      ∀ s' ∈ samplesForKey drop k batch,
        s'.timestamp < s.timestamp ∨
          (s'.timestamp = s.timestamp ∧ s'.value ≤ s.value) := by
  have hkmem : k ∈ keysOf (applyPairs (flatSamples drop batch) []) :=
    mem_keysOf_of_lookup h
  have hk : k ≠ [] := by
    rcases keysOf_applyPairs_sub hkmem with h' | h'
    · exact absurd h' (by simp [keysOf])
    · rcases List.mem_map.mp h' with ⟨p, hp, hpe⟩
      rcases flatSamples_key_shape hp with ⟨hne, _⟩
      rw [← hpe]
      exact hne
  have hspec := (applyPairs_spec (flatSamples drop batch) k).2 s h
  rw [sfPairs_flatSamples hk] at hspec
  exact hspec

/-- C2 witness: on the test batch, the survivor for metric x is the
sample of value 8943 at the later timestamp, and it dominates the pushed
duplicates 90984 (older timestamp) and 433 (same timestamp, smaller
value). -/
theorem c2_survivor_witness :
    (⟨1000001, 8943⟩ : Sample) ∈
        samplesForKey dropNodeInstance xKey testBatch ∧
      ∀ s' ∈ samplesForKey dropNodeInstance xKey testBatch,
        s'.timestamp < (Sample.mk 1000001 8943).timestamp ∨
          (s'.timestamp = (Sample.mk 1000001 8943).timestamp ∧
            s'.value ≤ (Sample.mk 1000001 8943).value) :=
  c2_survivor_highest_timestamp dropNodeInstance testBatch xKey
    ⟨1000001, 8943⟩ (by decide)

/-- In a duplicate-free list, the element a is counted exactly once. -/
theorem countP_eq_one_of_nodup_mem {α : Type} [DecidableEq α]
    {l : List α} {a : α} (hnd : l.Nodup) (h : a ∈ l) :
    l.countP (fun x => decide (x = a)) = 1 := by
  induction l with
  | nil => cases h
  | cons b rest ih =>
    rw [List.countP_cons]
    rcases List.mem_cons.mp h with hab | hmem
    · subst hab
      have hz : rest.countP (fun x => decide (x = a)) = 0 := by
        rw [List.countP_eq_zero]
        intro x hx
        simp only [decide_eq_true_iff]
        intro he
        subst he
        exact (List.nodup_cons.mp hnd).1 hx
      rw [hz]
      simp
    · have hb : ¬ (b = a) := fun he => by
        subst he
        exact (List.nodup_cons.mp hnd).1 hmem
      rw [ih (List.nodup_cons.mp hnd).2 hmem]
      simp [hb]

/-- C3: two series of one batch whose label sets agree after removing the
dropped names collapse to exactly one emitted output series for that
identity; concretely, with drop labels node and instance, pushing
foo with instance x value 1 then foo with instance y value 2 and flushing
emits exactly the single series foo with job aaa and value 2. -/
theorem c3_identity_collapsing :
    (∀ (drop : List String) (t1 t2 : TimeSeries),
        canonicalLabels drop t1.labels = canonicalLabels drop t2.labels →
        canonicalLabels drop t1.labels ≠ [] →
        t1.samples ≠ [] → t2.samples ≠ [] →
        ((flushGen (pushBatch drop [t1, t2] [])).map
            TimeSeries.labels).countP
          (fun ls => decide (ls = canonicalLabels drop t1.labels)) = 1) ∧
    flushGen (pushBatch dropNodeInstance [fooX, fooY] []) =
      [⟨[⟨"__name__", "foo"⟩, ⟨"job", "aaa"⟩], [⟨1000000, 2⟩]⟩] := by
  constructor
  · intro drop t1 t2 _ hk h1 _
    rw [flushGen_labels]
    rcases List.exists_mem_of_ne_nil _ h1 with ⟨s, hs⟩
    have hmem : canonicalLabels drop t1.labels ∈
        keysOf (pushBatch drop [t1, t2] []) :=
      mem_keysOf_applyPairs_of_pair
        (mem_flatSamples (by simp) hs hk) []
    have hnd : (keysOf (pushBatch drop [t1, t2] [])).Nodup :=
      nodup_keysOf_applyPairs _ (by simp [keysOf])
    exact countP_eq_one_of_nodup_mem hnd hmem
  · decide

/-- C3 witness: the general collapsing bound applied to the concrete
foo series pair of the scenario. -/
theorem c3_identity_collapsing_witness :
    ((flushGen (pushBatch dropNodeInstance [fooX, fooY] [])).map
        TimeSeries.labels).countP
      (fun ls => decide (ls = canonicalLabels dropNodeInstance fooX.labels)) = 1 :=
  c3_identity_collapsing.1 dropNodeInstance fooX fooY (by decide)
    (by decide) (by decide) (by decide)

/-- C4: the Label Normalizer keeps exactly the labels whose name is not
configured to be dropped (unknown drop names are no-ops), its output is
sorted by label name, the result is independent of the input label order
(for well-formed inputs with distinct label names), and every emitted
series carries such a sorted post-drop label set. -/
theorem c4_label_normalizer :
    (∀ (drop : List String) (ls : List Label) (l : Label),
        l ∈ canonicalLabels drop ls ↔ (l ∈ ls ∧ l.name ∉ drop)) ∧
    (∀ (drop : List String) (ls : List Label),
        List.Sorted labelLe (canonicalLabels drop ls)) ∧
    (∀ (drop : List String) (ls ls' : List Label),
        ls.Perm ls' → (ls.map Label.name).Nodup →
        canonicalLabels drop ls' = canonicalLabels drop ls) ∧
    (∀ (drop : List String) (batch : List TimeSeries) (out : TimeSeries),
        out ∈ flushGen (pushBatch drop batch []) →
        List.Sorted labelLe out.labels) := by
  refine ⟨mem_canonicalLabels, sorted_canonicalLabels,
    fun drop ls ls' hp hn => canonicalLabels_of_perm drop hp hn,
    fun drop batch out h => ?_⟩
  rcases emitted_labels_canonical h with ⟨ts, _, hout⟩
  rw [hout]
  exact sorted_canonicalLabels _ _

/-- C4 witness: on a concrete label list, membership is exactly the
retained non-dropped labels and reordering the input leaves the
normalized output unchanged. -/
theorem c4_label_normalizer_witness :
    ((⟨"job", "aaa"⟩ : Label) ∈
        canonicalLabels ["node"] [⟨"node", "n1"⟩, ⟨"job", "aaa"⟩] ↔
      ((⟨"job", "aaa"⟩ : Label) ∈
          ([⟨"node", "n1"⟩, ⟨"job", "aaa"⟩] : List Label) ∧
        "job" ∉ ["node"])) ∧
    canonicalLabels ["node"] [⟨"job", "aaa"⟩, ⟨"node", "n1"⟩] =
      canonicalLabels ["node"] [⟨"node", "n1"⟩, ⟨"job", "aaa"⟩] :=
  ⟨c4_label_normalizer.1 ["node"] [⟨"node", "n1"⟩, ⟨"job", "aaa"⟩]
      ⟨"job", "aaa"⟩,
    c4_label_normalizer.2.2.1 ["node"] [⟨"node", "n1"⟩, ⟨"job", "aaa"⟩]
      [⟨"job", "aaa"⟩, ⟨"node", "n1"⟩] (by decide) (by decide)⟩

/-- C5: over any event trace started from an empty generation, the open
generation holds at most one surviving sample per identity (its key list
is duplicate-free), and every batch handed to the sink carries
duplicate-free series labels with exactly one sample per emitted
series. -/
theorem c5_one_survivor_per_identity (drop : List String)
    (evs : List Event) :
    (keysOf (runEvents drop evs []).1).Nodup ∧
      ∀ out ∈ (runEvents drop evs []).2,
        (out.map TimeSeries.labels).Nodup ∧
          ∀ ts ∈ out, ts.samples.length = 1 := by
  have h := runEvents_inv drop evs [] (by simp [keysOf])
  refine ⟨h.1, fun out hout => ?_⟩
  rcases h.2 out hout with ⟨g', hg', hflush⟩
  subst hflush
  refine ⟨?_, ?_⟩
  · rw [flushGen_labels]
    exact hg'
  · intro ts hts
    rcases List.mem_map.mp hts with ⟨e, _, hte⟩
    rw [← hte]
    rfl

/-- C5 witness: the sink batch produced by flushing the ten-fold pushed
test batch has duplicate-free labels and one sample per series. -/
theorem c5_one_survivor_witness :
    ((flushGen (pushBatch dropNodeInstance testBatch [])).map
        TimeSeries.labels).Nodup ∧
      ∀ ts ∈ flushGen (pushBatch dropNodeInstance testBatch []),
        ts.samples.length = 1 :=
  (c5_one_survivor_per_identity dropNodeInstance
      [Event.push testBatch, Event.flush]).2
    (flushGen (pushBatch dropNodeInstance testBatch [])) (by decide)

/-- C6: every sample pushed after construction and before Stop, and not
yet emitted by an intermediate flush, contributes its Series Identity to
the batch handed to the sink by the final flush that Stop performs, even
though no window tick has elapsed. -/
theorem c6_drain_on_stop (w : Int) (drop : List String)
    (d₀ : Deduplicator) (hnew : newDeduplicator w drop = some d₀)
    (batches : List (List TimeSeries)) (b : List TimeSeries)
    (ts : TimeSeries) (s : Sample) (hb : b ∈ batches) (hts : ts ∈ b)
    (hs : s ∈ ts.samples) (hk : canonicalLabels drop ts.labels ≠ []) :
    canonicalLabels drop ts.labels ∈
      (mustStop (batches.foldl dedupPush d₀)).map TimeSeries.labels := by
  have hd : d₀ = ⟨w, drop, []⟩ := by
    unfold newDeduplicator at hnew
    split at hnew
    · cases hnew
    · injection hnew with h'
      exact h'.symm
  subst hd
  rw [foldl_dedupPush_eq]
  simp only [mustStop]
  rw [flushGen_labels]
  exact key_mem_foldBatches hs hk batches b hb hts []

/-- C6 witness: a series pushed once into a freshly constructed
deduplicator is present in the batch emitted by Stop. -/
theorem c6_drain_on_stop_witness :
    canonicalLabels dropNodeInstance fooX.labels ∈
      (mustStop (([[fooX]] : List (List TimeSeries)).foldl dedupPush
        ⟨3600000, dropNodeInstance, []⟩)).map TimeSeries.labels :=
  c6_drain_on_stop 3600000 dropNodeInstance
    ⟨3600000, dropNodeInstance, []⟩ (by decide) [[fooX]] [fooX] fooX
    ⟨1000000, 1⟩ (by decide) (by decide) (by decide) (by decide)

/-- C7: constructing with a non-positive window duration fails before any
Push is accepted, and every positive window duration yields an instance
with an empty open generation. -/
theorem c7_construction_window :
    (∀ (w : Int) (drop : List String), w ≤ 0 →
        newDeduplicator w drop = none) ∧
    (∀ (w : Int) (drop : List String), 0 < w →
        newDeduplicator w drop =
          some { window := w, drop := drop, gen := [] }) := by
  constructor
  · intro w drop hw
    unfold newDeduplicator
    rw [if_pos hw]
  · intro w drop hw
    unfold newDeduplicator
    rw [if_neg (not_le_of_lt hw)]

/-- C7 witness: window zero is rejected and the one-hour window of the
test is accepted with an empty generation. -/
theorem c7_construction_witness :
    newDeduplicator 0 dropNodeInstance = none ∧
      newDeduplicator 3600000 dropNodeInstance =
        some { window := 3600000, drop := dropNodeInstance, gen := [] } :=
  ⟨c7_construction_window.1 0 dropNodeInstance (by decide),
    c7_construction_window.2 3600000 dropNodeInstance (by decide)⟩

/-- C8 counterexample: with the drop list containing instance, the series
foo with label instance x is unique in its window, yet the emitted series
carries only the retained label set, which differs from the label set of
the series as pushed; so a unique series does not survive with literally
the same labels. -/
theorem c8_counterexample :
    flushGen (pushBatch ["instance"]
        [⟨[⟨"__name__", "foo"⟩, ⟨"instance", "x"⟩], [⟨1000000, 5⟩]⟩] []) =
      [⟨[⟨"__name__", "foo"⟩], [⟨1000000, 5⟩]⟩] ∧
    ¬ (([⟨"__name__", "foo"⟩] : List Label) =
        [⟨"__name__", "foo"⟩, ⟨"instance", "x"⟩]) := by
  decide

/-- C8 (amended): a series whose identity is unique within the window and
which received exactly one sample survives the flush unchanged up to
normalization: the emitted series carries the identity's canonical
(post-drop, name-sorted) label set and exactly the single sample that was
pushed. -/
theorem c8_unique_passthrough (drop : List String)
    (batch : List TimeSeries) (k : List Label) (s : Sample) (hk : k ≠ [])
    (huniq : samplesForKey drop k batch = [s]) :
    (⟨k, [s]⟩ : TimeSeries) ∈ flushGen (pushBatch drop batch []) := by
  have hsf : sfPairs (flatSamples drop batch) k = [s] := by
    rw [sfPairs_flatSamples hk, huniq]
  cases hl : lookupGen k (pushBatch drop batch []) with
  | none =>
    have h0 := (applyPairs_spec (flatSamples drop batch) k).1 hl
    rw [hsf] at h0
    cases h0
  | some m =>
    have hspec := (applyPairs_spec (flatSamples drop batch) k).2 m hl
    rw [hsf] at hspec
    have hms : m = s := List.mem_singleton.mp hspec.1
    subst hms
    exact List.mem_map_of_mem _ (mem_of_lookup_some hl)

/-- C8 amended-claim witness: the unique foo series of the
counterexample survives as the canonical series with its single
sample. -/
theorem c8_unique_passthrough_witness :
    (⟨[⟨"__name__", "foo"⟩], [⟨1000000, 5⟩]⟩ : TimeSeries) ∈
      flushGen (pushBatch ["instance"]
        [⟨[⟨"__name__", "foo"⟩, ⟨"instance", "x"⟩], [⟨1000000, 5⟩]⟩] []) :=
  c8_unique_passthrough ["instance"]
    [⟨[⟨"__name__", "foo"⟩, ⟨"instance", "x"⟩], [⟨1000000, 5⟩]⟩]
    [⟨"__name__", "foo"⟩] ⟨1000000, 5⟩ (by decide) (by decide)

/-- C9: a generation, once detached by a flush, is never mutated by later
pushes: over a trace of pushes, a flush, more pushes and a second flush,
the first emitted batch is exactly the accumulation of the pre-flush
pushes and the second is exactly the accumulation of the post-flush
pushes started from an empty generation, with no merging across the
boundary. -/
theorem c9_window_isolation (drop : List String)
    (bs1 bs2 : List (List TimeSeries)) :
    runEvents drop
        (bs1.map Event.push ++
          Event.flush :: (bs2.map Event.push ++ [Event.flush])) [] =
      ([],
        [flushGen (bs1.foldl (fun g b => pushBatch drop b g) []),
         flushGen (bs2.foldl (fun g b => pushBatch drop b g) [])]) := by
  rw [runEvents_pushes]
  simp only [runEvents]
  rw [runEvents_pushes]
  simp only [runEvents]

/-- C10: pushing the same batch any number of times at least once within
one window leaves exactly the per-identity state, and hence the flushed
output, of a single push. -/
theorem c10_repeat_push_idempotent (drop : List String)
    (batch : List TimeSeries) (n : Nat) (hn : 1 ≤ n) :
    pushTimes drop batch n [] = pushBatch drop batch [] ∧
      flushGen (pushTimes drop batch n []) =
        flushGen (pushBatch drop batch []) := by
  obtain ⟨m, rfl⟩ : ∃ m, n = m + 1 := ⟨n - 1, by omega⟩
  have h := pushTimes_succ_eq_once drop batch m
  exact ⟨h, by rw [h]⟩

/-- C10 witness: the ten-fold push of the test batch, as TestDeduplicator
performs it, equals a single push. -/
theorem c10_repeat_push_witness :
    pushTimes dropNodeInstance testBatch 10 [] =
        pushBatch dropNodeInstance testBatch [] ∧
      flushGen (pushTimes dropNodeInstance testBatch 10 []) =
        flushGen (pushBatch dropNodeInstance testBatch []) :=
  c10_repeat_push_idempotent dropNodeInstance testBatch 10 (by decide)
